import Mathlib

/-!
A verification development for the Redis-backed room manager
(`src/app/roomManager/index.js` of the mern-app-template backend).

Modelling choices (shallow embedding):

* A stored hash-field value is a JavaScript string.  For the registry the
  only relevant distinction is whether `JSON.parse` succeeds on it and, if
  so, which room object it denotes.  `JSON.stringify` of a room object
  `{clients, active}` (an array of strings and a boolean) produces a string
  that `JSON.parse` maps back to a structurally equal object, so a stored
  string is modelled as either `ser r` (the stringification of the room
  `r`) or `malformed s` (a string on which `JSON.parse` throws).

* The Redis database selected by the manager is modelled as an association
  list from namespace keys to values.  Following Redis, a key either holds
  a hash (an association list from field names, i.e. room names, to stored
  strings) or a value of some other type; `HGET`/`HGETALL`/`HSET` on a key
  of a non-hash type fail with a `WRONGTYPE` error, and on an absent key
  `HGET`/`HGETALL` reply null.  A hash with no fields does not exist in
  Redis, so `HGETALL` of an empty field list is also a null reply.

* Asynchronous JavaScript methods are functions returning
  `Except JsError α`: a resolved promise is `.ok`, a rejected promise
  (a thrown error propagating through `await`) is `.error`.  Methods that
  write thread the store state explicitly.  Logger calls are pure
  observation and are not modelled.

* `SELECT dbId` (used only by `init`) fails on an index outside the
  configured database range (Redis default: 16 databases); `FLUSHDB`
  empties the selected keyspace.  `init` is the only method wrapping its
  store calls in try/catch, converting errors to `false`.
-/

namespace RoomManager

/-- A parsed room object `{clients, active}` as stored by the manager. -/
structure Room where
  clients : List String
  active : Bool
deriving Repr, DecidableEq, Inhabited

/-- A JavaScript string stored as a hash-field value: either the
`JSON.stringify` image of a room object, or a string on which `JSON.parse`
throws a `SyntaxError`. -/
inductive StoredStr where
  | ser (r : Room)
  | malformed (s : String)
deriving Repr, DecidableEq

/-- The value held at a Redis key: a hash (association list from field
name to stored string) or a value of a non-hash type, on which the hash
commands fail with `WRONGTYPE`. -/
inductive NsVal where
  | hash (fields : List (String × StoredStr))
  | nonHash (s : String)
deriving Repr, DecidableEq

/-- The contents of the Redis database selected by the manager:
an association list from namespace keys to their values. -/
def Store := List (String × NsVal)

instance : DecidableEq Store := by
  unfold Store
  infer_instance

instance : Inhabited Store := ⟨([] : List (String × NsVal))⟩

/-- Errors a store call can reject with (propagated by `await`). -/
inductive JsError where
  | wrongType
  | invalidDb
  | typeError
deriving Repr, DecidableEq

/-- First-match lookup in an association list. -/
def alGet {α : Type} : List (String × α) → String → Option α
  | [], _ => none
  | (k', v') :: rest, k => if k = k' then some v' else alGet rest k

/-- Update the first entry with the given key in place, or append. -/
def alSet {α : Type} : List (String × α) → String → α → List (String × α)
  | [], k, v => [(k, v)]
  | (k', v') :: rest, k, v =>
    if k = k' then (k, v) :: rest else (k', v') :: alSet rest k v

/-- Redis `HGET namespace roomName`: null for an absent key or field,
the stored string otherwise, `WRONGTYPE` on a non-hash key. -/
def hget (st : Store) (ns rn : String) : Except JsError (Option StoredStr) :=
  match alGet st ns with
  | none => .ok none
  | some (.hash fields) => .ok (alGet fields rn)
  | some (.nonHash _) => .error .wrongType

/-- Redis `HGETALL namespace`: null for an absent key (a hash with no
fields does not exist), the field list otherwise, `WRONGTYPE` on a
non-hash key. -/
def hgetall (st : Store) (ns : String) :
    Except JsError (Option (List (String × StoredStr))) :=
  match alGet st ns with
  | none => .ok none
  | some (.hash fields) => .ok (if fields.isEmpty then none else some fields)
  | some (.nonHash _) => .error .wrongType

/-- Redis `HSET namespace roomName value`: creates the hash if the key is
absent, overwrites the field otherwise, `WRONGTYPE` on a non-hash key. -/
def hset (st : Store) (ns rn : String) (v : StoredStr) :
    Except JsError Store :=
  match alGet st ns with
  | none => .ok (alSet st ns (.hash [(rn, v)]))
  | some (.hash fields) => .ok (alSet st ns (.hash (alSet fields rn v)))
  | some (.nonHash _) => .error .wrongType

/-- Redis `FLUSHDB`: empties the selected keyspace. -/
def flushdb (_st : Store) : Store := ([] : List (String × NsVal))

/-- Redis `SELECT dbId`: fails when the index is outside the configured
database range (default 16). -/
def selectDb (dbId : Int) : Except JsError Unit :=
  if 0 ≤ dbId ∧ dbId < 16 then .ok () else .error .invalidDb

/-- `JSON.parse` applied to a stored string. -/
def jsonParse : StoredStr → Except Unit Room
  | .ser r => .ok r
  | .malformed _ => .error ()

/-- `JSON.stringify` applied to a room object. -/
def jsonStringify (r : Room) : StoredStr := .ser r

/-- `init()`: selects the database given to the constructor and flushes
it; any store error is caught, logged and converted to `false`. -/
def init (st : Store) (dbId : Int) : Bool × Store :=
  match selectDb dbId with
  | .ok _ => (true, flushdb st)
  | .error _ => (false, st)

/-- `getRoom(namespace, roomName)`: `hget` (whose rejection `await`
rethrows — it is not inside the try/catch), null check, then `JSON.parse`
inside try/catch (a parse error is logged and absorbed into null). -/
def getRoom (st : Store) (ns rn : String) : Except JsError (Option Room) :=
  match hget st ns rn with
  | .error e => .error e
  | .ok none => .ok none
  | .ok (some v) =>
    match jsonParse v with
    | .ok r => .ok (some r)
    | .error _ => .ok none

/-- The parsing loop of `getRooms`: parse each field in order, returning
null at the first field whose stored string fails to parse. -/
def parseAllRooms : List (String × StoredStr) → Option (List (String × Room))
  | [] => some []
  | (rn, v) :: rest =>
    match jsonParse v with
    | .error _ => none
    | .ok r =>
      match parseAllRooms rest with
      | none => none
      | some rs => some ((rn, r) :: rs)

/-- `getRooms(namespace)`: `hgetall` (rejection rethrown by `await`, not
inside any try/catch), null check, then parse every field; a single
malformed field makes the whole call return null. -/
def getRooms (st : Store) (ns : String) :
    Except JsError (Option (List (String × Room))) :=
  match hgetall st ns with
  | .error e => .error e
  | .ok none => .ok none
  | .ok (some fields) => .ok (parseAllRooms fields)

/-- `roomExists(namespace, roomName)`: `getRoom(...) !== null`. -/
def roomExists (st : Store) (ns rn : String) : Except JsError Bool :=
  match getRoom st ns rn with
  | .error e => .error e
  | .ok r => .ok r.isSome

/-- `_saveRoom(namespace, roomName, roomObj)`: `hset` of the
stringified room. -/
def saveRoom (st : Store) (ns rn : String) (r : Room) :
    Except JsError Store :=
  hset st ns rn (jsonStringify r)

/-- `addRoom(namespace, roomName)`: `false` when the room already exists,
otherwise save `{clients: [], active: true}` and return `true`. -/
def addRoom (st : Store) (ns rn : String) :
    Except JsError (Bool × Store) :=
  match roomExists st ns rn with
  | .error e => .error e
  | .ok true => .ok (false, st)
  | .ok false =>
    match saveRoom st ns rn ⟨[], true⟩ with
    | .error e => .error e
    | .ok st1 => .ok (true, st1)

/-- `addClient(namespace, roomName, clientId)`: `addRoom` (result
ignored), re-read the room, push the client id, save.  Pushing onto
`null.clients` would be a `TypeError`. -/
def addClient (st : Store) (ns rn cid : String) : Except JsError Store :=
  match addRoom st ns rn with
  | .error e => .error e
  | .ok (_, st1) =>
    match getRoom st1 ns rn with
    | .error e => .error e
    | .ok none => .error .typeError
    | .ok (some r) => saveRoom st1 ns rn { r with clients := r.clients ++ [cid] }

/-- The shared `ensure the room exists` prelude of `activateRoom` and
`deactivateRoom`: `roomExists`, and `addRoom` (result ignored) when it
does not. -/
def ensureRoom (st : Store) (ns rn : String) : Except JsError Store :=
  match roomExists st ns rn with
  | .error e => .error e
  | .ok true => .ok st
  | .ok false =>
    match addRoom st ns rn with
    | .error e => .error e
    | .ok (_, st1) => .ok st1

/-- `activateRoom(namespace, roomName)`: create the room when absent,
re-read it, set `active = true`, save. -/
def activateRoom (st : Store) (ns rn : String) : Except JsError Store :=
  match ensureRoom st ns rn with
  | .error e => .error e
  | .ok st1 =>
    match getRoom st1 ns rn with
    | .error e => .error e
    | .ok none => .error .typeError
    | .ok (some r) => saveRoom st1 ns rn { r with active := true }

/-- `deactivateRoom(namespace, roomName)`: create the room when absent,
re-read it, set `active = false`, save. -/
def deactivateRoom (st : Store) (ns rn : String) : Except JsError Store :=
  match ensureRoom st ns rn with
  | .error e => .error e
  | .ok st1 =>
    match getRoom st1 ns rn with
    | .error e => .error e
    | .ok none => .error .typeError
    | .ok (some r) => saveRoom st1 ns rn { r with active := false }

/-- JavaScript `Array.prototype.indexOf` on an array of strings, as an
option (`none` models the `-1` result). -/
def jsIndexOf : List String → String → Option Nat
  | [], _ => none
  | a :: rest, x => if a = x then some 0 else (jsIndexOf rest x).map (· + 1)

/-- `removeClientFromRoom(namespace, roomName, clientId)`: `false` when
the room does not exist or the client is not in `clients`; otherwise
splice out the entry at the first matching index, save, return `true`. -/
def removeClientFromRoom (st : Store) (ns rn cid : String) :
    Except JsError (Bool × Store) :=
  match roomExists st ns rn with
  | .error e => .error e
  | .ok false => .ok (false, st)
  | .ok true =>
    match getRoom st ns rn with
    | .error e => .error e
    | .ok none => .error .typeError
    | .ok (some r) =>
      match jsIndexOf r.clients cid with
      | none => .ok (false, st)
      | some i =>
        match saveRoom st ns rn { r with clients := r.clients.eraseIdx i } with
        | .error e => .error e
        | .ok st1 => .ok (true, st1)

/-- The `asyncForEach` loop of `removeClientFromNamespace`: sequentially
awaits `removeClientFromRoom` for each room of the snapshot, in property
order, discarding each call's boolean result. -/
def forEachRemove (ns cid : String) :
    Store → List (String × Room) → Except JsError Store
  | st, [] => .ok st
  | st, p :: rest =>
    match removeClientFromRoom st ns p.1 cid with
    | .error e => .error e
    | .ok (_, st1) => forEachRemove ns cid st1 rest

/-- `removeClientFromNamespace(namespace, clientId)`: `getRooms`, `false`
when it is null, otherwise `removeClientFromRoom` for every room in order
(each result ignored), then `true`. -/
def removeClientFromNamespace (st : Store) (ns cid : String) :
    Except JsError (Bool × Store) :=
  match getRooms st ns with
  | .error e => .error e
  | .ok none => .ok (false, st)
  | .ok (some rooms) =>
    match forEachRemove ns cid st rooms with
    | .error e => .error e
    | .ok st1 => .ok (true, st1)

/-- A stored string that parses back to a room object. -/
def storedStrOk : StoredStr → Bool
  | .ser _ => true
  | .malformed _ => false

/-- A namespace value every registry write maintains: a hash all of whose
fields are serialized room objects. -/
def nsValOk : NsVal → Bool
  | .hash fields => fields.all (fun p => storedStrOk p.2)
  | .nonHash _ => false

/-- Every key of the store holds a hash of serialized room objects. -/
def storeOk (st : Store) : Bool :=
  st.all (fun p => nsValOk p.2)

/-- The namespace key is absent or holds a hash, so that the hash
commands on it succeed. -/
def nsReadable (st : Store) (ns : String) : Bool :=
  match alGet st ns with
  | none => true
  | some (.hash _) => true
  | some (.nonHash _) => false

/-- A JavaScript JSON value tree, used to state the serialize/deserialize
round trip at the level of parsed values: `JSON.stringify` of a value
produces text that `JSON.parse` maps back to the same tree. -/
inductive Json where
  | null
  | bool (b : Bool)
  | num (n : Int)
  | str (s : String)
  | arr (xs : List Json)
  | obj (fields : List (String × Json))

/-- The JSON value tree `JSON.stringify` serializes for a room object
`{clients, active}`: an object with a `clients` array of strings and an
`active` boolean, in that property order. -/
def jsonOfRoom (r : Room) : Json :=
  .obj [("clients", .arr (r.clients.map .str)), ("active", .bool r.active)]

/-- Reading a JSON array back as a list of client-identifier strings. -/
def decodeClientList : List Json → Option (List String)
  | [] => some []
  | .str s :: rest => (decodeClientList rest).map (s :: ·)
  | _ => none

/-- Reading a deserialized JSON value back as a room object; defined on
exactly the trees `jsonOfRoom` produces. -/
def roomOfJson : Json → Option Room
  | .obj [("clients", .arr xs), ("active", .bool b)] =>
    (decodeClientList xs).map (fun cl => ⟨cl, b⟩)
  | _ => none

theorem alGet_alSet_self {α : Type} (l : List (String × α)) (k : String)
    (v : α) : alGet (alSet l k v) k = some v := by
  induction l with
  | nil => simp [alGet, alSet]
  | cons p rest ih =>
    obtain ⟨k', v'⟩ := p
    by_cases h : k = k'
    · simp [alSet, h, alGet]
    · simp [alSet, h, alGet, ih]

theorem alGet_alSet_ne {α : Type} (l : List (String × α)) (k k' : String)
    (v : α) (h : k' ≠ k) : alGet (alSet l k v) k' = alGet l k' := by
  induction l with
  | nil => simp [alGet, alSet, h]
  | cons p rest ih =>
    obtain ⟨k0, v0⟩ := p
    by_cases hk : k = k0
    · subst hk
      simp [alSet, alGet, h]
    · by_cases hk' : k' = k0 <;> simp [alSet, alGet, hk, hk', ih]

theorem jsIndexOf_eq_none_iff (l : List String) (x : String) :
    jsIndexOf l x = none ↔ x ∉ l := by
  induction l with
  | nil => simp [jsIndexOf]
  | cons a rest ih =>
    by_cases h : a = x
    · simp [jsIndexOf, h]
    · simp [jsIndexOf, h, ih]
      exact fun _ hxa => h hxa.symm

theorem eraseIdx_of_jsIndexOf (l : List String) (x : String) (i : Nat)
    (h : jsIndexOf l x = some i) : l.eraseIdx i = l.erase x := by
  induction l generalizing i with
  | nil => simp [jsIndexOf] at h
  | cons a rest ih =>
    by_cases hax : a = x
    · subst hax
      simp [jsIndexOf] at h
      subst h
      simp [List.eraseIdx, List.erase_cons]
    · simp [jsIndexOf, hax] at h
      obtain ⟨j, hj, hji⟩ := h
      subst hji
      simp [List.eraseIdx, List.erase_cons, hax, ih j hj]

theorem saveRoom_ok_of_readable (st : Store) (ns rn : String) (r : Room)
    (h : nsReadable st ns = true) : ∃ st1, saveRoom st ns rn r = .ok st1 := by
  unfold nsReadable at h
  cases hns : alGet st ns with
  | none =>
    exact ⟨alSet st ns (.hash [(rn, jsonStringify r)]),
      by simp [saveRoom, hset, hns]⟩
  | some nv =>
    cases nv with
    | hash fields =>
      exact ⟨alSet st ns (.hash (alSet fields rn (jsonStringify r))),
        by simp [saveRoom, hset, hns]⟩
    | nonHash s => rw [hns] at h; simp at h

theorem getRoom_saveRoom_self {st st1 : Store} {ns rn : String} {r : Room}
    (h : saveRoom st ns rn r = .ok st1) : getRoom st1 ns rn = .ok (some r) := by
  unfold saveRoom hset at h
  split at h
  · simp only [Except.ok.injEq] at h
    subst h
    simp [getRoom, hget, alGet_alSet_self, alGet, jsonParse, jsonStringify]
  · simp only [Except.ok.injEq] at h
    subst h
    simp [getRoom, hget, alGet_alSet_self, jsonParse, jsonStringify]
  · exact absurd h (by simp)

theorem getRoom_saveRoom_ne {st st1 : Store} {ns rn : String} {r : Room}
    (h : saveRoom st ns rn r = .ok st1) (rn' : String) (hne : rn' ≠ rn) :
    getRoom st1 ns rn' = getRoom st ns rn' := by
  unfold saveRoom hset at h
  split at h <;> rename_i hns
  case _ =>
    simp only [Except.ok.injEq] at h
    subst h
    simp [getRoom, hget, alGet_alSet_self, alGet, hns, hne]
  case _ =>
    rename_i fields
    simp only [Except.ok.injEq] at h
    subst h
    simp [getRoom, hget, alGet_alSet_self, hns, alGet_alSet_ne _ _ _ _ hne]
  case _ => exact absurd h (by simp)

theorem readable_of_getRoom_ok {st : Store} {ns rn : String}
    {o : Option Room} (h : getRoom st ns rn = .ok o) :
    nsReadable st ns = true := by
  unfold getRoom hget at h
  unfold nsReadable
  cases hns : alGet st ns with
  | none => rfl
  | some nv =>
    cases nv with
    | hash fields => rfl
    | nonHash s => rw [hns] at h; simp at h

theorem addRoom_absent {st : Store} {ns rn : String}
    (h : getRoom st ns rn = .ok none) :
    ∃ st1, saveRoom st ns rn ⟨[], true⟩ = .ok st1 ∧
      addRoom st ns rn = .ok (true, st1) := by
  obtain ⟨st1, hs⟩ :=
    saveRoom_ok_of_readable st ns rn ⟨[], true⟩ (readable_of_getRoom_ok h)
  exact ⟨st1, hs, by simp [addRoom, roomExists, h, hs]⟩

theorem addRoom_present {st : Store} {ns rn : String} {r : Room}
    (h : getRoom st ns rn = .ok (some r)) :
    addRoom st ns rn = .ok (false, st) := by
  simp [addRoom, roomExists, h]

theorem removeClientFromRoom_absent {st : Store} {ns rn cid : String}
    (h : getRoom st ns rn = .ok none) :
    removeClientFromRoom st ns rn cid = .ok (false, st) := by
  simp [removeClientFromRoom, roomExists, h]

theorem removeClientFromRoom_not_mem {st : Store} {ns rn cid : String}
    {r : Room} (h : getRoom st ns rn = .ok (some r))
    (hm : cid ∉ r.clients) :
    removeClientFromRoom st ns rn cid = .ok (false, st) := by
  have hidx : jsIndexOf r.clients cid = none :=
    (jsIndexOf_eq_none_iff _ _).mpr hm
  simp [removeClientFromRoom, roomExists, h, hidx]

theorem removeClientFromRoom_mem {st : Store} {ns rn cid : String}
    {r : Room} (h : getRoom st ns rn = .ok (some r))
    (hm : cid ∈ r.clients) :
    ∃ st1, saveRoom st ns rn { r with clients := r.clients.erase cid } = .ok st1 ∧
      removeClientFromRoom st ns rn cid = .ok (true, st1) := by
  cases hidx : jsIndexOf r.clients cid with
  | none => exact absurd ((jsIndexOf_eq_none_iff _ _).mp hidx) (by simp [hm])
  | some i =>
    have herase := eraseIdx_of_jsIndexOf _ _ _ hidx
    obtain ⟨st1, hs⟩ := saveRoom_ok_of_readable st ns rn
      { r with clients := r.clients.erase cid } (readable_of_getRoom_ok h)
    refine ⟨st1, hs, ?_⟩
    rw [removeClientFromRoom]
    simp only [roomExists, h, Option.isSome_some, hidx, herase, hs]

theorem ensureRoom_present {st : Store} {ns rn : String} {r : Room}
    (h : getRoom st ns rn = .ok (some r)) :
    ensureRoom st ns rn = .ok st := by
  simp [ensureRoom, roomExists, h]

theorem ensureRoom_absent {st : Store} {ns rn : String}
    (h : getRoom st ns rn = .ok none) :
    ∃ st1, saveRoom st ns rn ⟨[], true⟩ = .ok st1 ∧
      ensureRoom st ns rn = .ok st1 := by
  obtain ⟨st1, hs, ha⟩ := addRoom_absent h
  exact ⟨st1, hs, by simp [ensureRoom, roomExists, h, ha]⟩

theorem activateRoom_present {st : Store} {ns rn : String} {r : Room}
    (h : getRoom st ns rn = .ok (some r)) :
    ∃ st1, saveRoom st ns rn { r with active := true } = .ok st1 ∧
      activateRoom st ns rn = .ok st1 := by
  obtain ⟨st1, hs⟩ := saveRoom_ok_of_readable st ns rn
    { r with active := true } (readable_of_getRoom_ok h)
  exact ⟨st1, hs, by simp [activateRoom, ensureRoom_present h, h, hs]⟩

theorem deactivateRoom_present {st : Store} {ns rn : String} {r : Room}
    (h : getRoom st ns rn = .ok (some r)) :
    ∃ st1, saveRoom st ns rn { r with active := false } = .ok st1 ∧
      deactivateRoom st ns rn = .ok st1 := by
  obtain ⟨st1, hs⟩ := saveRoom_ok_of_readable st ns rn
    { r with active := false } (readable_of_getRoom_ok h)
  exact ⟨st1, hs, by simp [deactivateRoom, ensureRoom_present h, h, hs]⟩

theorem activateRoom_absent {st : Store} {ns rn : String}
    (h : getRoom st ns rn = .ok none) :
    ∃ st2, activateRoom st ns rn = .ok st2 ∧
      getRoom st2 ns rn = .ok (some ⟨[], true⟩) := by
  obtain ⟨st1, hs, he⟩ := ensureRoom_absent h
  have hg1 : getRoom st1 ns rn = .ok (some ⟨[], true⟩) :=
    getRoom_saveRoom_self hs
  obtain ⟨st2, hs2⟩ := saveRoom_ok_of_readable st1 ns rn ⟨[], true⟩
    (readable_of_getRoom_ok hg1)
  refine ⟨st2, ?_, getRoom_saveRoom_self hs2⟩
  rw [activateRoom, he]
  simp only [hg1]
  exact hs2

theorem deactivateRoom_absent {st : Store} {ns rn : String}
    (h : getRoom st ns rn = .ok none) :
    ∃ st2, deactivateRoom st ns rn = .ok st2 ∧
      getRoom st2 ns rn = .ok (some ⟨[], false⟩) := by
  obtain ⟨st1, hs, he⟩ := ensureRoom_absent h
  have hg1 : getRoom st1 ns rn = .ok (some ⟨[], true⟩) :=
    getRoom_saveRoom_self hs
  obtain ⟨st2, hs2⟩ := saveRoom_ok_of_readable st1 ns rn ⟨[], false⟩
    (readable_of_getRoom_ok hg1)
  refine ⟨st2, ?_, getRoom_saveRoom_self hs2⟩
  rw [deactivateRoom, he]
  simp only [hg1]
  exact hs2

theorem addClient_present {st : Store} {ns rn cid : String} {r : Room}
    (h : getRoom st ns rn = .ok (some r)) :
    ∃ st1, saveRoom st ns rn { r with clients := r.clients ++ [cid] } = .ok st1 ∧
      addClient st ns rn cid = .ok st1 := by
  obtain ⟨st1, hs⟩ := saveRoom_ok_of_readable st ns rn
    { r with clients := r.clients ++ [cid] } (readable_of_getRoom_ok h)
  exact ⟨st1, hs, by simp [addClient, addRoom_present h, h, hs]⟩

theorem addClient_absent {st : Store} {ns rn cid : String}
    (h : getRoom st ns rn = .ok none) :
    ∃ st2, addClient st ns rn cid = .ok st2 ∧
      getRoom st2 ns rn = .ok (some ⟨[cid], true⟩) := by
  obtain ⟨st1, hs, ha⟩ := addRoom_absent h
  have hg1 : getRoom st1 ns rn = .ok (some ⟨[], true⟩) :=
    getRoom_saveRoom_self hs
  obtain ⟨st2, hs2⟩ := saveRoom_ok_of_readable st1 ns rn ⟨[cid], true⟩
    (readable_of_getRoom_ok hg1)
  refine ⟨st2, ?_, getRoom_saveRoom_self hs2⟩
  rw [addClient, ha]
  simp only [hg1]
  exact hs2

theorem parseAllRooms_none_of_malformed
    {fields : List (String × StoredStr)}
    (h : ∃ p ∈ fields, ∃ s, p.2 = .malformed s) :
    parseAllRooms fields = none := by
  induction fields with
  | nil => simp at h
  | cons q rest ih =>
    obtain ⟨rn, v⟩ := q
    rcases h with ⟨p, hp, s, hs⟩
    rcases List.mem_cons.mp hp with rfl | hp'
    · simp only at hs
      subst hs
      simp [parseAllRooms, jsonParse]
    · rw [parseAllRooms]
      cases jsonParse v with
      | error e => rfl
      | ok r => rw [ih ⟨p, hp', s, hs⟩]

theorem parseAllRooms_of_ok {fields : List (String × StoredStr)}
    (h : ∀ p ∈ fields, ∃ r, p.2 = .ser r) :
    ∃ rooms, parseAllRooms fields = some rooms := by
  induction fields with
  | nil => exact ⟨[], rfl⟩
  | cons q rest ih =>
    obtain ⟨rn, v⟩ := q
    obtain ⟨r, hr⟩ := h (rn, v) (by simp)
    simp only at hr
    subst hr
    obtain ⟨rooms, hrooms⟩ := ih (fun p hp => h p (by simp [hp]))
    exact ⟨(rn, r) :: rooms, by simp [parseAllRooms, jsonParse, hrooms]⟩

theorem parseAllRooms_keys {fields : List (String × StoredStr)}
    {rooms : List (String × Room)} (h : parseAllRooms fields = some rooms) :
    rooms.map Prod.fst = fields.map Prod.fst := by
  induction fields generalizing rooms with
  | nil =>
    rw [parseAllRooms] at h
    simp only [Option.some.injEq] at h
    subst h
    rfl
  | cons q rest ih =>
    obtain ⟨rn, v⟩ := q
    rw [parseAllRooms] at h
    cases hv : jsonParse v with
    | error e => rw [hv] at h; cases h
    | ok r =>
      rw [hv] at h
      cases hrest : parseAllRooms rest with
      | none => rw [hrest] at h; cases h
      | some rs =>
        rw [hrest] at h
        simp only [Option.some.injEq] at h
        subst h
        simp [ih hrest]

theorem parseAllRooms_mem {fields : List (String × StoredStr)}
    {rooms : List (String × Room)} (h : parseAllRooms fields = some rooms) :
    ∀ p ∈ rooms, (p.1, StoredStr.ser p.2) ∈ fields := by
  induction fields generalizing rooms with
  | nil =>
    rw [parseAllRooms] at h
    simp only [Option.some.injEq] at h
    subst h
    simp
  | cons q rest ih =>
    obtain ⟨rn, v⟩ := q
    rw [parseAllRooms] at h
    cases hv : jsonParse v with
    | error e => rw [hv] at h; cases h
    | ok r =>
      rw [hv] at h
      cases hrest : parseAllRooms rest with
      | none => rw [hrest] at h; cases h
      | some rs =>
        rw [hrest] at h
        simp only [Option.some.injEq] at h
        subst h
        intro p hp
        rcases List.mem_cons.mp hp with rfl | hp'
        · cases v with
          | ser r0 =>
            simp only [jsonParse, Except.ok.injEq] at hv
            subst hv
            simp
          | malformed s => simp [jsonParse] at hv
        · exact List.mem_cons_of_mem _ (ih hrest p hp')

theorem alGet_of_mem_nodup {α : Type} {l : List (String × α)} {k : String}
    {v : α} (h : (k, v) ∈ l) (hnd : (l.map Prod.fst).Nodup) :
    alGet l k = some v := by
  induction l with
  | nil => simp at h
  | cons q rest ih =>
    obtain ⟨k0, v0⟩ := q
    simp only [List.map_cons, List.nodup_cons] at hnd
    rcases List.mem_cons.mp h with he | h'
    · simp only [Prod.mk.injEq] at he
      obtain ⟨rfl, rfl⟩ := he
      simp [alGet]
    · have hk : k ≠ k0 := by
        rintro rfl
        exact hnd.1 (List.mem_map_of_mem Prod.fst h')
      simp [alGet, hk, ih h' hnd.2]

theorem getRooms_some_getRoom {st : Store} {ns : String}
    {rooms : List (String × Room)} (h : getRooms st ns = .ok (some rooms))
    (hnd : (rooms.map Prod.fst).Nodup) :
    ∀ p ∈ rooms, getRoom st ns p.1 = .ok (some p.2) := by
  unfold getRooms hgetall at h
  cases hns : alGet st ns with
  | none => rw [hns] at h; simp at h
  | some nv =>
    cases nv with
    | nonHash s => rw [hns] at h; simp at h
    | hash fields =>
      rw [hns] at h
      by_cases hemp : fields.isEmpty
      · simp [hemp] at h
      · simp only [hemp, if_neg, Bool.false_eq_true, not_false_iff,
          ite_false, Except.ok.injEq] at h
        have hkeys := parseAllRooms_keys h
        have hndf : (fields.map Prod.fst).Nodup := hkeys ▸ hnd
        intro p hp
        have hmem := parseAllRooms_mem h p hp
        have := alGet_of_mem_nodup hmem hndf
        simp [getRoom, hget, hns, this, jsonParse]

theorem forEachRemove_spec (ns cid : String) (rooms : List (String × Room)) :
    ∀ (st : Store), (rooms.map Prod.fst).Nodup →
    (∀ p ∈ rooms, getRoom st ns p.1 = .ok (some p.2)) →
    ∃ st1, forEachRemove ns cid st rooms = .ok st1 ∧
      (∀ p ∈ rooms,
        getRoom st1 ns p.1 = .ok (some ⟨p.2.1.erase cid, p.2.2⟩)) ∧
      (∀ rn', rn' ∉ rooms.map Prod.fst →
        getRoom st1 ns rn' = getRoom st ns rn') := by
  induction rooms with
  | nil =>
    intro st _ _
    exact ⟨st, rfl, by simp, fun _ _ => rfl⟩
  | cons p rest ih =>
    intro st hnd hall
    obtain ⟨rn0, r0⟩ := p
    have h0 : getRoom st ns rn0 = .ok (some r0) :=
      hall (rn0, r0) (List.mem_cons_self _ _)
    have hstep : ∃ b st', removeClientFromRoom st ns rn0 cid = .ok (b, st') ∧
        getRoom st' ns rn0 = .ok (some ⟨r0.clients.erase cid, r0.active⟩) ∧
        ∀ rn', rn' ≠ rn0 → getRoom st' ns rn' = getRoom st ns rn' := by
      by_cases hm : cid ∈ r0.clients
      · obtain ⟨st', hs, hr⟩ := removeClientFromRoom_mem h0 hm
        exact ⟨true, st', hr, getRoom_saveRoom_self hs,
          fun rn' hne => getRoom_saveRoom_ne hs rn' hne⟩
      · refine ⟨false, st, removeClientFromRoom_not_mem h0 hm, ?_,
          fun _ _ => rfl⟩
        rw [List.erase_of_not_mem hm]
        exact h0
    obtain ⟨b, st', hrm, hr0, hframe⟩ := hstep
    simp only [List.map_cons, List.nodup_cons] at hnd
    have hkey : rn0 ∉ rest.map Prod.fst := hnd.1
    have hall' : ∀ q ∈ rest, getRoom st' ns q.1 = .ok (some q.2) := by
      intro q hq
      have hne : q.1 ≠ rn0 := by
        rintro rfl
        exact hkey (List.mem_map_of_mem Prod.fst hq)
      rw [hframe q.1 hne]
      exact hall q (List.mem_cons_of_mem _ hq)
    obtain ⟨st1, hfold, hpost, hframe2⟩ := ih st' hnd.2 hall'
    refine ⟨st1, ?_, ?_, ?_⟩
    · rw [forEachRemove, hrm]
      exact hfold
    · intro q hq
      rcases List.mem_cons.mp hq with rfl | hq'
      · rw [hframe2 rn0 hkey]
        exact hr0
      · exact hpost q hq'
    · intro rn' hrn'
      simp only [List.map_cons, List.mem_cons] at hrn'
      push_neg at hrn'
      rw [hframe2 rn' hrn'.2, hframe rn' hrn'.1]

theorem getRoom_total_of_readable {st : Store} {ns : String}
    (h : nsReadable st ns = true) (rn : String) :
    ∃ o, getRoom st ns rn = .ok o := by
  unfold nsReadable at h
  cases hns : alGet st ns with
  | none => exact ⟨none, by simp [getRoom, hget, hns]⟩
  | some nv =>
    cases nv with
    | nonHash s => rw [hns] at h; simp at h
    | hash fields =>
      cases hf : alGet fields rn with
      | none => exact ⟨none, by simp [getRoom, hget, hns, hf]⟩
      | some v =>
        cases v with
        | ser r => exact ⟨some r, by simp [getRoom, hget, hns, hf, jsonParse]⟩
        | malformed s =>
          exact ⟨none, by simp [getRoom, hget, hns, hf, jsonParse]⟩

theorem getRooms_total_of_readable {st : Store} {ns : String}
    (h : nsReadable st ns = true) :
    ∃ o, getRooms st ns = .ok o := by
  unfold nsReadable at h
  cases hns : alGet st ns with
  | none => exact ⟨none, by simp [getRooms, hgetall, hns]⟩
  | some nv =>
    cases nv with
    | nonHash s => rw [hns] at h; simp at h
    | hash fields =>
      by_cases hemp : fields.isEmpty
      · exact ⟨none, by simp [getRooms, hgetall, hns, hemp]⟩
      · exact ⟨parseAllRooms fields, by simp [getRooms, hgetall, hns, hemp]⟩

theorem alGet_all {α : Type} {q : α → Bool} {l : List (String × α)}
    {k : String} {v : α} (hl : l.all (fun p => q p.2) = true)
    (h : alGet l k = some v) : q v = true := by
  induction l with
  | nil => simp [alGet] at h
  | cons p rest ih =>
    obtain ⟨k0, v0⟩ := p
    simp only [List.all_cons, Bool.and_eq_true] at hl
    by_cases hk : k = k0
    · rw [alGet] at h
      simp only [hk, if_true, Option.some.injEq] at h
      subst h
      exact hl.1
    · rw [alGet] at h
      simp only [hk, if_false] at h
      exact ih hl.2 h

theorem alSet_all {α : Type} {q : α → Bool} {l : List (String × α)}
    {k : String} {v : α} (hl : l.all (fun p => q p.2) = true)
    (hv : q v = true) : (alSet l k v).all (fun p => q p.2) = true := by
  induction l with
  | nil => simp [alSet, hv]
  | cons p rest ih =>
    obtain ⟨k0, v0⟩ := p
    simp only [List.all_cons, Bool.and_eq_true] at hl
    by_cases hk : k = k0 <;> simp [alSet, hk, hv, hl.1, hl.2, ih hl.2]

theorem saveRoom_storeOk {st st1 : Store} {ns rn : String} {r : Room}
    (hok : storeOk st = true) (h : saveRoom st ns rn r = .ok st1) :
    storeOk st1 = true := by
  unfold saveRoom hset at h
  split at h <;> rename_i hns
  · simp only [Except.ok.injEq] at h
    subst h
    exact alSet_all hok (by simp [nsValOk, storedStrOk, jsonStringify])
  · rename_i fields
    simp only [Except.ok.injEq] at h
    subst h
    have hfields : nsValOk (.hash fields) = true := alGet_all hok hns
    simp only [nsValOk] at hfields
    refine alSet_all hok ?_
    simp only [nsValOk]
    exact alSet_all hfields (by simp [storedStrOk, jsonStringify])
  · exact Except.noConfusion h

theorem addRoom_ok_cases {st st1 : Store} {ns rn : String} {b : Bool}
    (h : addRoom st ns rn = .ok (b, st1)) :
    (b = false ∧ st1 = st) ∨
      (b = true ∧ saveRoom st ns rn ⟨[], true⟩ = .ok st1) := by
  unfold addRoom at h
  split at h
  · exact Except.noConfusion h
  · simp only [Except.ok.injEq, Prod.mk.injEq] at h
    exact .inl ⟨h.1.symm, h.2.symm⟩
  · split at h
    · exact Except.noConfusion h
    · rename_i st' hsave
      simp only [Except.ok.injEq, Prod.mk.injEq] at h
      exact .inr ⟨h.1.symm, h.2 ▸ hsave⟩

theorem addRoom_storeOk {st st1 : Store} {ns rn : String} {b : Bool}
    (hok : storeOk st = true) (h : addRoom st ns rn = .ok (b, st1)) :
    storeOk st1 = true := by
  rcases addRoom_ok_cases h with ⟨_, rfl⟩ | ⟨_, hs⟩
  · exact hok
  · exact saveRoom_storeOk hok hs

theorem addRoom_fresh {st st1 : Store} {ns rn : String}
    (h : addRoom st ns rn = .ok (true, st1)) :
    getRoom st1 ns rn = .ok (some ⟨[], true⟩) := by
  rcases addRoom_ok_cases h with ⟨hb, _⟩ | ⟨_, hs⟩
  · exact Bool.noConfusion hb
  · exact getRoom_saveRoom_self hs

theorem ensureRoom_ok_cases {st st1 : Store} {ns rn : String}
    (h : ensureRoom st ns rn = .ok st1) :
    st1 = st ∨ ∃ b, addRoom st ns rn = .ok (b, st1) := by
  unfold ensureRoom at h
  split at h
  · exact Except.noConfusion h
  · simp only [Except.ok.injEq] at h
    exact .inl h.symm
  · split at h
    · exact Except.noConfusion h
    · rename_i b' stm hadd
      simp only [Except.ok.injEq] at h
      exact .inr ⟨b', by rw [← h]; exact hadd⟩

theorem ensureRoom_storeOk {st st1 : Store} {ns rn : String}
    (hok : storeOk st = true) (h : ensureRoom st ns rn = .ok st1) :
    storeOk st1 = true := by
  rcases ensureRoom_ok_cases h with rfl | ⟨b, hadd⟩
  · exact hok
  · exact addRoom_storeOk hok hadd

theorem addClient_storeOk {st st1 : Store} {ns rn cid : String}
    (hok : storeOk st = true) (h : addClient st ns rn cid = .ok st1) :
    storeOk st1 = true := by
  unfold addClient at h
  split at h
  · exact Except.noConfusion h
  · rename_i b' stm hadd
    have hokm : storeOk stm = true := addRoom_storeOk hok hadd
    split at h
    · exact Except.noConfusion h
    · exact Except.noConfusion h
    · exact saveRoom_storeOk hokm h

theorem activateRoom_storeOk {st st1 : Store} {ns rn : String}
    (hok : storeOk st = true) (h : activateRoom st ns rn = .ok st1) :
    storeOk st1 = true := by
  unfold activateRoom at h
  split at h
  · exact Except.noConfusion h
  · rename_i stm hens
    have hokm : storeOk stm = true := ensureRoom_storeOk hok hens
    split at h
    · exact Except.noConfusion h
    · exact Except.noConfusion h
    · exact saveRoom_storeOk hokm h

theorem deactivateRoom_storeOk {st st1 : Store} {ns rn : String}
    (hok : storeOk st = true) (h : deactivateRoom st ns rn = .ok st1) :
    storeOk st1 = true := by
  unfold deactivateRoom at h
  split at h
  · exact Except.noConfusion h
  · rename_i stm hens
    have hokm : storeOk stm = true := ensureRoom_storeOk hok hens
    split at h
    · exact Except.noConfusion h
    · exact Except.noConfusion h
    · exact saveRoom_storeOk hokm h

theorem removeClientFromRoom_storeOk {st st1 : Store} {ns rn cid : String}
    {b : Bool} (hok : storeOk st = true)
    (h : removeClientFromRoom st ns rn cid = .ok (b, st1)) :
    storeOk st1 = true := by
  unfold removeClientFromRoom at h
  split at h
  · exact Except.noConfusion h
  · simp only [Except.ok.injEq, Prod.mk.injEq] at h
    exact h.2 ▸ hok
  · split at h
    · exact Except.noConfusion h
    · exact Except.noConfusion h
    · split at h
      · simp only [Except.ok.injEq, Prod.mk.injEq] at h
        exact h.2 ▸ hok
      · split at h
        · exact Except.noConfusion h
        · rename_i st' hsave
          simp only [Except.ok.injEq, Prod.mk.injEq] at h
          exact h.2 ▸ saveRoom_storeOk hok hsave

theorem forEachRemove_storeOk {ns cid : String}
    (rooms : List (String × Room)) :
    ∀ {st st1 : Store}, storeOk st = true →
    forEachRemove ns cid st rooms = .ok st1 → storeOk st1 = true := by
  induction rooms with
  | nil =>
    intro st st1 hok h
    rw [forEachRemove] at h
    simp only [Except.ok.injEq] at h
    exact h ▸ hok
  | cons p rest ih =>
    intro st st1 hok h
    rw [forEachRemove] at h
    split at h
    · exact Except.noConfusion h
    · rename_i q hrm
      exact ih (removeClientFromRoom_storeOk hok hrm) h

theorem removeClientFromNamespace_storeOk {st st1 : Store} {ns cid : String}
    {b : Bool} (hok : storeOk st = true)
    (h : removeClientFromNamespace st ns cid = .ok (b, st1)) :
    storeOk st1 = true := by
  unfold removeClientFromNamespace at h
  split at h
  · exact Except.noConfusion h
  · simp only [Except.ok.injEq, Prod.mk.injEq] at h
    exact h.2 ▸ hok
  · split at h
    · exact Except.noConfusion h
    · rename_i st' hfold
      simp only [Except.ok.injEq, Prod.mk.injEq] at h
      exact h.2 ▸ forEachRemove_storeOk _ hok hfold

theorem init_storeOk {st : Store} {dbId : Int} (hok : storeOk st = true) :
    storeOk (init st dbId).2 = true := by
  unfold init
  split
  · rfl
  · exact hok

theorem decodeClientList_map (l : List String) :
    decodeClientList (l.map Json.str) = some l := by
  induction l with
  | nil => rfl
  | cons a rest ih => simp [decodeClientList, ih]

theorem roomOfJson_jsonOfRoom (r : Room) :
    roomOfJson (jsonOfRoom r) = some r := by
  obtain ⟨cl, ac⟩ := r
  simp [jsonOfRoom, roomOfJson, decodeClientList_map]

end RoomManager

open RoomManager

/-- C1, counterexample.  The claim states that `removeClientFromNamespace`
returns `false` when no room had the client removed.  On a store whose
namespace `ns` holds one room `r` with clients `["c2"]`, removing client
`"c1"` removes nothing — the store comes back unchanged and `"c1"` is not
in the room — yet the call returns `true`, because the code returns `true`
whenever `getRooms` is non-null, ignoring the per-room results. -/
theorem c1_removeClientFromNamespace_counterexample :
    removeClientFromNamespace
      [("ns", .hash [("r", .ser ⟨["c2"], true⟩)])] "ns" "c1" =
      .ok (true, [("ns", .hash [("r", .ser ⟨["c2"], true⟩)])]) ∧
    "c1" ∉ (["c2"] : List String) :=
  ⟨rfl, by decide⟩

/-- C1, amended.  For every store, namespace and client id:
`removeClientFromNamespace` returns `false` when the namespace has no
rooms (`getRooms` yields null); otherwise it attempts
`removeClientFromRoom` on every room of the namespace — afterwards every
room has the first occurrence of the client erased from its clients
list — and returns `true` unconditionally, even when no room contained
the client. -/
theorem c1_removeClientFromNamespace_amended (st : Store) (ns cid : String) :
    (getRooms st ns = .ok none →
      removeClientFromNamespace st ns cid = .ok (false, st)) ∧
    (∀ rooms, getRooms st ns = .ok (some rooms) →
      (rooms.map Prod.fst).Nodup →
      ∃ st1, removeClientFromNamespace st ns cid = .ok (true, st1) ∧
        ∀ p ∈ rooms, getRoom st1 ns p.1 =
          .ok (some ⟨p.2.clients.erase cid, p.2.active⟩)) := by
  constructor
  · intro h
    simp [removeClientFromNamespace, h]
  · intro rooms h hnd
    have hall := getRooms_some_getRoom h hnd
    obtain ⟨st1, hfold, hpost, _⟩ := forEachRemove_spec ns cid rooms st hnd hall
    refine ⟨st1, ?_, hpost⟩
    rw [removeClientFromNamespace, h]
    simp only [hfold]

/-- C1, witness for the amended theorem, on the spec's three-room example:
rooms `r1`, `r2` contain `"c1"`, room `r3` contains only `"c2"`; the call
succeeds with `true` and afterwards `r1`, `r2` have `"c1"` erased while
`r3` still reads `["c2"]`. -/
theorem c1_removeClientFromNamespace_amended_witness :
    ∃ st1, removeClientFromNamespace
        [("ns", .hash [("r1", .ser ⟨["c1", "c2"], true⟩),
                       ("r2", .ser ⟨["c1"], true⟩),
                       ("r3", .ser ⟨["c2"], true⟩)])] "ns" "c1" =
      .ok (true, st1) ∧
      ∀ p ∈ ([("r1", Room.mk ["c1", "c2"] true),
              ("r2", Room.mk ["c1"] true),
              ("r3", Room.mk ["c2"] true)] : List (String × Room)),
        getRoom st1 "ns" p.1 =
          .ok (some ⟨p.2.clients.erase "c1", p.2.active⟩) :=
  (c1_removeClientFromNamespace_amended
    [("ns", .hash [("r1", .ser ⟨["c1", "c2"], true⟩),
                   ("r2", .ser ⟨["c1"], true⟩),
                   ("r3", .ser ⟨["c2"], true⟩)])] "ns" "c1").2
    [("r1", Room.mk ["c1", "c2"] true),
     ("r2", Room.mk ["c1"] true),
     ("r3", Room.mk ["c2"] true)] rfl (by decide)

/-- C2, counterexample.  The claim states that `getRoom` and `getRooms`
never raise an exception for any store state, including store-level read
errors.  Only `JSON.parse` is inside the try/catch: when the namespace key
holds a non-hash value the store read itself rejects (Redis `WRONGTYPE`)
and the error propagates out of both readers. -/
theorem c2_reads_counterexample :
    getRoom [("ns", .nonHash "v")] "ns" "room" = .error .wrongType ∧
    getRooms [("ns", .nonHash "v")] "ns" = .error .wrongType :=
  ⟨rfl, rfl⟩

/-- C2, amended.  Whenever the store read itself succeeds (the namespace
key is absent or holds a hash), `getRoom` and `getRooms` never raise:
both resolve to some value; a key-not-found reply yields null, and a
stored string on which `JSON.parse` throws also yields null.  Store-level
read errors are not caught and propagate to the caller. -/
theorem c2_reads_never_throw_amended (st : Store) (ns rn : String)
    (h : nsReadable st ns = true) :
    (∃ o, getRoom st ns rn = .ok o) ∧
    (∃ o, getRooms st ns = .ok o) ∧
    (hget st ns rn = .ok none → getRoom st ns rn = .ok none) ∧
    (∀ s, hget st ns rn = .ok (some (.malformed s)) →
      getRoom st ns rn = .ok none) := by
  refine ⟨getRoom_total_of_readable h rn, getRooms_total_of_readable h,
    ?_, ?_⟩
  · intro hh
    simp [getRoom, hh]
  · intro s hh
    simp [getRoom, hh, jsonParse]

/-- C2, witness: on a hash holding one malformed field `bad`, both readers
resolve, and reading `bad` yields null. -/
theorem c2_reads_never_throw_amended_witness :
    (∃ o, getRoom [("ns", .hash [("bad", .malformed "oops")])] "ns" "bad" =
      .ok o) ∧
    getRoom [("ns", .hash [("bad", .malformed "oops")])] "ns" "bad" =
      .ok none :=
  ⟨(c2_reads_never_throw_amended
      [("ns", .hash [("bad", .malformed "oops")])] "ns" "bad" rfl).1,
   (c2_reads_never_throw_amended
      [("ns", .hash [("bad", .malformed "oops")])] "ns" "bad" rfl).2.2.2
      "oops" rfl⟩

/-- C3: for a room that is initially absent, `addRoom` twice in a row
returns `true` then `false` (the second call changes nothing), and
afterwards the room reads back with `clients = []` and `active = true`. -/
theorem c3_addRoom_idempotent (st : Store) (ns rn : String)
    (h : getRoom st ns rn = .ok none) :
    ∃ st1, addRoom st ns rn = .ok (true, st1) ∧
      addRoom st1 ns rn = .ok (false, st1) ∧
      getRoom st1 ns rn = .ok (some ⟨[], true⟩) := by
  obtain ⟨st1, hs, ha⟩ := addRoom_absent h
  have hg : getRoom st1 ns rn = .ok (some ⟨[], true⟩) :=
    getRoom_saveRoom_self hs
  exact ⟨st1, ha, addRoom_present hg, hg⟩

/-- C3, witness: on the empty store, `addRoom("chat", "lobby")` twice. -/
theorem c3_addRoom_idempotent_witness :
    ∃ st1, addRoom ([] : Store) "chat" "lobby" = .ok (true, st1) ∧
      addRoom st1 "chat" "lobby" = .ok (false, st1) ∧
      getRoom st1 "chat" "lobby" = .ok (some ⟨[], true⟩) :=
  c3_addRoom_idempotent ([] : Store) "chat" "lobby" rfl

/-- C4: `removeClientFromRoom` returns `false` when the room does not
exist and when the client is not in the room's clients list; otherwise it
removes exactly the first matching occurrence (`List.erase` removes the
first occurrence only), persists the update, and returns `true`. -/
theorem c4_removeClientFromRoom_spec (st : Store) (ns rn cid : String) :
    (getRoom st ns rn = .ok none →
      removeClientFromRoom st ns rn cid = .ok (false, st)) ∧
    (∀ r, getRoom st ns rn = .ok (some r) → cid ∉ r.clients →
      removeClientFromRoom st ns rn cid = .ok (false, st)) ∧
    (∀ r, getRoom st ns rn = .ok (some r) → cid ∈ r.clients →
      ∃ st1, removeClientFromRoom st ns rn cid = .ok (true, st1) ∧
        getRoom st1 ns rn = .ok (some ⟨r.clients.erase cid, r.active⟩)) := by
  refine ⟨fun h => removeClientFromRoom_absent h,
    fun r h hm => removeClientFromRoom_not_mem h hm,
    fun r h hm => ?_⟩
  obtain ⟨st1, hs, hr⟩ := removeClientFromRoom_mem h hm
  exact ⟨st1, hr, getRoom_saveRoom_self hs⟩

/-- C4, witness: a missing room yields `false`; on a room with clients
`["x", "x"]`, removing `"x"` succeeds and leaves `["x"]`, not `[]`. -/
theorem c4_removeClientFromRoom_spec_witness :
    removeClientFromRoom ([] : Store) "ns" "r" "x" = .ok (false, []) ∧
    ∃ st1, removeClientFromRoom
        [("ns", .hash [("r", .ser ⟨["x", "x"], true⟩)])] "ns" "r" "x" =
      .ok (true, st1) ∧
      getRoom st1 "ns" "r" = .ok (some ⟨["x"], true⟩) :=
  ⟨(c4_removeClientFromRoom_spec ([] : Store) "ns" "r" "x").1 rfl,
   (c4_removeClientFromRoom_spec
      [("ns", .hash [("r", .ser ⟨["x", "x"], true⟩)])] "ns" "r" "x").2.2
      ⟨["x", "x"], true⟩ rfl (by decide)⟩

/-- C5: `getRooms` returns null when the namespace has no rooms
(`hgetall` replies null), and returns null for the whole namespace as
soon as any single stored field fails to parse (fail-closed), rather than
returning the remaining well-formed rooms; when every field parses it
returns the room mapping. -/
theorem c5_getRooms_fail_closed (st : Store) (ns : String) :
    (hgetall st ns = .ok none → getRooms st ns = .ok none) ∧
    (∀ fields, hgetall st ns = .ok (some fields) →
      (∃ p ∈ fields, ∃ s, p.2 = .malformed s) →
      getRooms st ns = .ok none) ∧
    (∀ fields, hgetall st ns = .ok (some fields) →
      (∀ p ∈ fields, ∃ r, p.2 = .ser r) →
      ∃ rooms, getRooms st ns = .ok (some rooms)) := by
  refine ⟨?_, ?_, ?_⟩
  · intro h
    simp [getRooms, h]
  · intro fields h hmal
    rw [getRooms, h]
    simp [parseAllRooms_none_of_malformed hmal]
  · intro fields h hok
    obtain ⟨rooms, hr⟩ := parseAllRooms_of_ok hok
    exact ⟨rooms, by rw [getRooms, h]; simp [hr]⟩

/-- C5, witness: a namespace holding one well-formed room `good` and one
malformed field `bad` reads back as null as a whole. -/
theorem c5_getRooms_fail_closed_witness :
    getRooms [("ns", .hash [("good", .ser ⟨["c"], true⟩),
                            ("bad", .malformed "zzz")])] "ns" = .ok none :=
  (c5_getRooms_fail_closed
    [("ns", .hash [("good", .ser ⟨["c"], true⟩),
                   ("bad", .malformed "zzz")])] "ns").2.1
    [("good", .ser ⟨["c"], true⟩), ("bad", .malformed "zzz")] rfl
    ⟨("bad", .malformed "zzz"), by decide, "zzz", rfl⟩

/-- C6: `activateRoom` and `deactivateRoom` ensure the room exists
(creating it via `addRoom` when missing) and then set `active` to
`true` / `false` respectively and persist; on a previously absent room
the result reads back with `clients = []` and the requested flag. -/
theorem c6_activation_spec (st : Store) (ns rn : String) :
    (getRoom st ns rn = .ok none →
      ∃ st1, activateRoom st ns rn = .ok st1 ∧
        getRoom st1 ns rn = .ok (some ⟨[], true⟩)) ∧
    (∀ r, getRoom st ns rn = .ok (some r) →
      ∃ st1, activateRoom st ns rn = .ok st1 ∧
        getRoom st1 ns rn = .ok (some ⟨r.clients, true⟩)) ∧
    (getRoom st ns rn = .ok none →
      ∃ st1, deactivateRoom st ns rn = .ok st1 ∧
        getRoom st1 ns rn = .ok (some ⟨[], false⟩)) ∧
    (∀ r, getRoom st ns rn = .ok (some r) →
      ∃ st1, deactivateRoom st ns rn = .ok st1 ∧
        getRoom st1 ns rn = .ok (some ⟨r.clients, false⟩)) := by
  refine ⟨fun h => activateRoom_absent h, ?_,
    fun h => deactivateRoom_absent h, ?_⟩
  · intro r h
    obtain ⟨st1, hs, ha⟩ := activateRoom_present h
    exact ⟨st1, ha, getRoom_saveRoom_self hs⟩
  · intro r h
    obtain ⟨st1, hs, ha⟩ := deactivateRoom_present h
    exact ⟨st1, ha, getRoom_saveRoom_self hs⟩

/-- C6, witness: `activateRoom` on a namespace with no such room leaves
the room existing with `active = true` and `clients = []`. -/
theorem c6_activation_spec_witness :
    ∃ st1, activateRoom ([] : Store) "ns" "newRoom" = .ok st1 ∧
      getRoom st1 "ns" "newRoom" = .ok (some ⟨[], true⟩) :=
  (c6_activation_spec ([] : Store) "ns" "newRoom").1 rfl

/-- C7: round trip through the store.  The serialize-then-deserialize
identity on room objects holds at the level of parsed JSON values
(`roomOfJson (jsonOfRoom r) = some r`), and after each write via
`addClient`, `activateRoom` or `deactivateRoom`, a subsequent `getRoom`
on the same namespace and room name returns exactly the room object the
operation wrote. -/
theorem c7_round_trip (r : Room) (st : Store) (ns rn cid : String) :
    roomOfJson (jsonOfRoom r) = some r ∧
    (getRoom st ns rn = .ok none →
      (∃ st1, addClient st ns rn cid = .ok st1 ∧
        getRoom st1 ns rn = .ok (some ⟨[cid], true⟩)) ∧
      (∃ st1, activateRoom st ns rn = .ok st1 ∧
        getRoom st1 ns rn = .ok (some ⟨[], true⟩)) ∧
      (∃ st1, deactivateRoom st ns rn = .ok st1 ∧
        getRoom st1 ns rn = .ok (some ⟨[], false⟩))) ∧
    (∀ r0, getRoom st ns rn = .ok (some r0) →
      (∃ st1, addClient st ns rn cid = .ok st1 ∧
        getRoom st1 ns rn = .ok (some ⟨r0.clients ++ [cid], r0.active⟩)) ∧
      (∃ st1, activateRoom st ns rn = .ok st1 ∧
        getRoom st1 ns rn = .ok (some ⟨r0.clients, true⟩)) ∧
      (∃ st1, deactivateRoom st ns rn = .ok st1 ∧
        getRoom st1 ns rn = .ok (some ⟨r0.clients, false⟩))) := by
  refine ⟨roomOfJson_jsonOfRoom r, fun h => ⟨addClient_absent h,
    activateRoom_absent h, deactivateRoom_absent h⟩, fun r0 h => ⟨?_, ?_, ?_⟩⟩
  · obtain ⟨st1, hs, ha⟩ := @addClient_present _ _ _ cid _ h
    exact ⟨st1, ha, getRoom_saveRoom_self hs⟩
  · obtain ⟨st1, hs, ha⟩ := activateRoom_present h
    exact ⟨st1, ha, getRoom_saveRoom_self hs⟩
  · obtain ⟨st1, hs, ha⟩ := deactivateRoom_present h
    exact ⟨st1, ha, getRoom_saveRoom_self hs⟩

/-- C7, witness: the scenario of the spec — `addClient` on a fresh room
reads back `{clients: ["u1"], active: true}`, then `deactivateRoom` reads
back `{clients: ["u1"], active: false}`; and the serialization identity
at the written room. -/
theorem c7_round_trip_witness :
    roomOfJson (jsonOfRoom ⟨["u1"], true⟩) = some ⟨["u1"], true⟩ ∧
    (∃ st1, addClient ([] : Store) "chat" "lobby" "u1" = .ok st1 ∧
      getRoom st1 "chat" "lobby" = .ok (some ⟨["u1"], true⟩)) ∧
    (∃ st1, deactivateRoom
        [("chat", .hash [("lobby", .ser ⟨["u1"], true⟩)])] "chat" "lobby" =
        .ok st1 ∧
      getRoom st1 "chat" "lobby" = .ok (some ⟨["u1"], false⟩)) :=
  ⟨(c7_round_trip ⟨["u1"], true⟩ ([] : Store) "chat" "lobby" "u1").1,
   ((c7_round_trip ⟨["u1"], true⟩ ([] : Store) "chat" "lobby" "u1").2.1
      rfl).1,
   ((c7_round_trip ⟨["u1"], true⟩
      [("chat", .hash [("lobby", .ser ⟨["u1"], true⟩)])] "chat" "lobby"
      "u1").2.2 ⟨["u1"], true⟩ rfl).2.2⟩

/-- C8: `init` selects the registry's keyspace and clears it entirely,
returning `true` on success; on a store error (an invalid keyspace
selector) it returns the boolean `false` and leaves the state alone —
by construction it returns a `Bool` and never raises.  `init` is the only
operation converting store errors into a boolean: every other operation
propagates a store-level error (here a `WRONGTYPE` namespace key) to the
caller. -/
theorem c8_init_error_to_bool (st : Store) (dbId : Int) :
    ((0 ≤ dbId ∧ dbId < 16) → init st dbId = (true, flushdb st)) ∧
    (¬(0 ≤ dbId ∧ dbId < 16) → init st dbId = (false, st)) ∧
    (∀ ns s, alGet st ns = some (.nonHash s) → ∀ rn cid,
      getRoom st ns rn = .error .wrongType ∧
      getRooms st ns = .error .wrongType ∧
      addRoom st ns rn = .error .wrongType ∧
      addClient st ns rn cid = .error .wrongType ∧
      activateRoom st ns rn = .error .wrongType ∧
      deactivateRoom st ns rn = .error .wrongType ∧
      removeClientFromRoom st ns rn cid = .error .wrongType ∧
      removeClientFromNamespace st ns cid = .error .wrongType) := by
  refine ⟨fun h => by simp [init, selectDb, h.1, h.2],
    fun h => by simp [init, selectDb, h], ?_⟩
  intro ns s hns rn cid
  have hg : getRoom st ns rn = .error .wrongType := by
    simp [getRoom, hget, hns]
  have hgs : getRooms st ns = .error .wrongType := by
    simp [getRooms, hgetall, hns]
  have hre : roomExists st ns rn = .error .wrongType := by
    simp [roomExists, hg]
  have hadd : addRoom st ns rn = .error .wrongType := by
    simp [addRoom, hre]
  have hens : ensureRoom st ns rn = .error .wrongType := by
    simp [ensureRoom, hre]
  exact ⟨hg, hgs, hadd, by simp [addClient, hadd],
    by simp [activateRoom, hens], by simp [deactivateRoom, hens],
    by simp [removeClientFromRoom, hre],
    by simp [removeClientFromNamespace, hgs]⟩

/-- C8, witness: keyspace 3 is valid and flushes; keyspace 20 is an
invalid selector and yields `false`; on a `WRONGTYPE` namespace key,
`addRoom` propagates the error instead of returning a boolean. -/
theorem c8_init_error_to_bool_witness :
    init [("k", .hash [("r", .ser ⟨[], true⟩)])] 3 = (true, []) ∧
    init [("k", .hash [("r", .ser ⟨[], true⟩)])] 20 =
      (false, [("k", .hash [("r", .ser ⟨[], true⟩)])]) ∧
    addRoom [("ns", .nonHash "v")] "ns" "r" = .error .wrongType :=
  ⟨(c8_init_error_to_bool [("k", .hash [("r", .ser ⟨[], true⟩)])] 3).1
      (by decide),
   (c8_init_error_to_bool [("k", .hash [("r", .ser ⟨[], true⟩)])] 20).2.1
      (by decide),
   ((c8_init_error_to_bool [("ns", .nonHash "v")] 0).2.2 "ns" "v" rfl
      "r" "c").2.2.1⟩

/-- C9: invariant — on a store in which every stored value is the
serialization of a room object (whose `clients` is a JavaScript array,
never null), every registry operation preserves that shape for every
value it writes, and a newly created room starts with `clients = []` and
`active = true`. -/
theorem c9_clients_never_null (st : Store) (hok : storeOk st = true) :
    (∀ dbId, storeOk (init st dbId).2 = true) ∧
    (∀ ns rn b st1, addRoom st ns rn = .ok (b, st1) →
      storeOk st1 = true ∧
      (b = true → getRoom st1 ns rn = .ok (some ⟨[], true⟩))) ∧
    (∀ ns rn cid st1, addClient st ns rn cid = .ok st1 →
      storeOk st1 = true) ∧
    (∀ ns rn st1, activateRoom st ns rn = .ok st1 → storeOk st1 = true) ∧
    (∀ ns rn st1, deactivateRoom st ns rn = .ok st1 →
      storeOk st1 = true) ∧
    (∀ ns rn cid b st1, removeClientFromRoom st ns rn cid = .ok (b, st1) →
      storeOk st1 = true) ∧
    (∀ ns cid b st1, removeClientFromNamespace st ns cid = .ok (b, st1) →
      storeOk st1 = true) := by
  refine ⟨fun dbId => init_storeOk hok, ?_,
    fun ns rn cid st1 h => addClient_storeOk hok h,
    fun ns rn st1 h => activateRoom_storeOk hok h,
    fun ns rn st1 h => deactivateRoom_storeOk hok h,
    fun ns rn cid b st1 h => removeClientFromRoom_storeOk hok h,
    fun ns cid b st1 h => removeClientFromNamespace_storeOk hok h⟩
  intro ns rn b st1 h
  exact ⟨addRoom_storeOk hok h, fun hb => addRoom_fresh (hb ▸ h)⟩

/-- C9, witness: creating a room on a well-formed one-room store keeps
the store well-formed and the new room reads back `⟨[], true⟩`. -/
theorem c9_clients_never_null_witness :
    storeOk [("ns", .hash [("r", .ser ⟨["a"], true⟩),
                           ("r2", .ser ⟨[], true⟩)])] = true ∧
    getRoom [("ns", .hash [("r", .ser ⟨["a"], true⟩),
                           ("r2", .ser ⟨[], true⟩)])] "ns" "r2" =
      .ok (some ⟨[], true⟩) :=
  ⟨((c9_clients_never_null [("ns", .hash [("r", .ser ⟨["a"], true⟩)])]
      (by decide)).2.1 "ns" "r2" true
      [("ns", .hash [("r", .ser ⟨["a"], true⟩), ("r2", .ser ⟨[], true⟩)])]
      rfl).1,
   ((c9_clients_never_null [("ns", .hash [("r", .ser ⟨["a"], true⟩)])]
      (by decide)).2.1 "ns" "r2" true
      [("ns", .hash [("r", .ser ⟨["a"], true⟩), ("r2", .ser ⟨[], true⟩)])]
      rfl).2 rfl⟩

/-- C10: frame property — on an existing room, `addClient` and
`removeClientFromRoom` leave the `active` flag unchanged, and
`activateRoom` and `deactivateRoom` leave the `clients` list unchanged:
each mutator touches only its own field of the room state. -/
theorem c10_mutator_frame (st : Store) (ns rn cid : String) (r : Room)
    (h : getRoom st ns rn = .ok (some r)) :
    (∃ st1, addClient st ns rn cid = .ok st1 ∧
      getRoom st1 ns rn = .ok (some ⟨r.clients ++ [cid], r.active⟩)) ∧
    (∃ b st1, removeClientFromRoom st ns rn cid = .ok (b, st1) ∧
      getRoom st1 ns rn = .ok (some ⟨r.clients.erase cid, r.active⟩)) ∧
    (∃ st1, activateRoom st ns rn = .ok st1 ∧
      getRoom st1 ns rn = .ok (some ⟨r.clients, true⟩)) ∧
    (∃ st1, deactivateRoom st ns rn = .ok st1 ∧
      getRoom st1 ns rn = .ok (some ⟨r.clients, false⟩)) := by
  refine ⟨?_, ?_, ?_, ?_⟩
  · obtain ⟨st1, hs, ha⟩ := @addClient_present _ _ _ cid _ h
    exact ⟨st1, ha, getRoom_saveRoom_self hs⟩
  · by_cases hm : cid ∈ r.clients
    · obtain ⟨st1, hs, hr⟩ := removeClientFromRoom_mem h hm
      exact ⟨true, st1, hr, getRoom_saveRoom_self hs⟩
    · refine ⟨false, st, removeClientFromRoom_not_mem h hm, ?_⟩
      rw [List.erase_of_not_mem hm]
      exact h
  · obtain ⟨st1, hs, ha⟩ := activateRoom_present h
    exact ⟨st1, ha, getRoom_saveRoom_self hs⟩
  · obtain ⟨st1, hs, ha⟩ := deactivateRoom_present h
    exact ⟨st1, ha, getRoom_saveRoom_self hs⟩

/-- C10, witness: on a room with `clients = ["a"]` and `active = false`,
`addClient "b"` keeps `active = false`, and `activateRoom` keeps
`clients = ["a"]`. -/
theorem c10_mutator_frame_witness :
    (∃ st1, addClient [("ns", .hash [("r", .ser ⟨["a"], false⟩)])]
        "ns" "r" "b" = .ok st1 ∧
      getRoom st1 "ns" "r" = .ok (some ⟨["a", "b"], false⟩)) ∧
    (∃ st1, activateRoom [("ns", .hash [("r", .ser ⟨["a"], false⟩)])]
        "ns" "r" = .ok st1 ∧
      getRoom st1 "ns" "r" = .ok (some ⟨["a"], true⟩)) :=
  ⟨(c10_mutator_frame [("ns", .hash [("r", .ser ⟨["a"], false⟩)])]
      "ns" "r" "b" ⟨["a"], false⟩ rfl).1,
   (c10_mutator_frame [("ns", .hash [("r", .ser ⟨["a"], false⟩)])]
      "ns" "r" "b" ⟨["a"], false⟩ rfl).2.2.1⟩
